import Mathlib

/-!
Verification of the telecom-churn ETL pipeline (scripts/transform.py,
scripts/load.py, scripts/validate.py) against its natural-language
specification.  The Python code is shallowly embedded: pandas columns become
lists of optional rationals or strings, the Supabase client becomes a boolean
configuration flag, and the network insert calls become an oracle assigning an
outcome to each call, so that the loader's control flow (batching, retry with
backoff, schema-mismatch abort, local fallback) is an explicit executable
function on those data.
-/

namespace ETL

/-! ## Column normalizer (load.py, `_normalize_col`, lines 121-125)

The code applies, in order:
  1. `re.sub(r'([a-z0-9])([A-Z])', r'\x5c1_\x5c2', s)` - insert an underscore
     between a lowercase-letter-or-digit and an immediately following
     uppercase letter (no two matches can overlap, since the second character
     of a match is uppercase and can never start another match);
  2. `re.sub(r'[^0-9a-zA-Z_]+', '_', s)` - replace every maximal run of
     characters outside `[0-9a-zA-Z_]` with a single underscore;
  3. `.strip('_')` - drop leading and trailing underscores;
  4. `.lower()` - lowercase.
-/

/-- Character class `[a-z0-9]` of the first regex in `_normalize_col`. -/
def isLowerDigit (c : Char) : Bool :=
  ('a' ≤ c && c ≤ 'z') || ('0' ≤ c && c ≤ '9')

/-- Character class `[A-Z]` of the regexes in `_normalize_col`. -/
def isUpperAZ (c : Char) : Bool :=
  'A' ≤ c && c ≤ 'Z'

/-- Character class `[0-9a-zA-Z_]`: the characters the second regex of
`_normalize_col` leaves alone. -/
def isWordChar (c : Char) : Bool :=
  ('0' ≤ c && c ≤ '9') || ('a' ≤ c && c ≤ 'z') || ('A' ≤ c && c ≤ 'Z') || c == '_'

/-- Step 1 of `_normalize_col`: insert an underscore between each adjacent
pair matching `([a-z0-9])([A-Z])`. -/
def camelSub : List Char → List Char
  | [] => []
  | [c] => [c]
  | c1 :: c2 :: rest =>
    if isLowerDigit c1 && isUpperAZ c2 then c1 :: '_' :: camelSub (c2 :: rest)
    else c1 :: camelSub (c2 :: rest)

/-- Replace every maximal run of characters failing `word` by a single
underscore (the semantics of `re.sub(r'<non-word>+', '_', s)`, with the
non-word class parameterised). -/
def collapseRunsWith (word : Char → Bool) : List Char → List Char
  | [] => []
  | c :: rest =>
    if word c then c :: collapseRunsWith word rest
    else '_' :: collapseRunsWith word (rest.dropWhile (fun d => !word d))
termination_by l => l.length
decreasing_by
  simp
  exact Nat.lt_succ_of_le ((List.dropWhile_sublist _).length_le)

/-- Step 2 of `_normalize_col`: `re.sub(r'[^0-9a-zA-Z_]+', '_', s)`. -/
def collapseSub (l : List Char) : List Char := collapseRunsWith isWordChar l

/-- Drop trailing underscores (the right half of Python `.strip('_')`). -/
def dropTrailSep : List Char → List Char
  | [] => []
  | c :: rest =>
    let r := dropTrailSep rest
    if r.isEmpty && c == '_' then [] else c :: r

/-- Step 3 of `_normalize_col`: Python `.strip('_')`. -/
def stripSep (l : List Char) : List Char :=
  dropTrailSep (l.dropWhile (fun c => c == '_'))

/-- Step 4 of `_normalize_col`: Python `.lower()` (ASCII lowering). -/
def lowerStr (l : List Char) : List Char := l.map Char.toLower

/-- The column normalizer `_normalize_col` of load.py (lines 121-125). -/
def _normalize_col (s : String) : String :=
  String.mk (lowerStr (stripSep (collapseSub (camelSub s.data))))

/-- `any(ch.isupper() for ch in str(orig))` (load.py line 136), deciding
whether the compatibility rule applies to an original column name.
Python's `str.isupper` consults the Unicode character database, so - unlike
the ASCII-only regex classes above - it is not transcribed here; the
per-character table is abstracted as the parameter `pyUpper`, an external
collaborator of the embedding exactly like the network-call oracle of the
loader.  On the ASCII fragment Python's table coincides with `isUpperAZ`
(only `A`-`Z` satisfy `isupper`). -/
def hasUpperPy (pyUpper : Char → Bool) (s : String) : Bool := s.data.any pyUpper

/-- The database name an original column is mapped to (load.py lines
134-141), for a given `isupper` table `pyUpper`: if the original name
contains a character the table classifies as uppercase, all underscores are
removed from the normalized name (`norm.replace("_", "")`); otherwise the
normalized name is kept unchanged. -/
def db_name (pyUpper : Char → Bool) (orig : String) : String :=
  if hasUpperPy pyUpper orig then
    String.mk (((_normalize_col orig).data).filter (fun c => !(c == '_')))
  else _normalize_col orig

/-! Claim-side definitions for C2.  `normalizeClaimC2` transcribes the
claim's wording literally: a separator is inserted at lower-to-upper LETTER
boundaries only (a digit before an uppercase letter is not a boundary), and
every maximal run of non-ALPHANUMERIC characters (which includes underscores)
is replaced by exactly one separator. -/

/-- Lowercase letters, the left class of the claimed boundary rule. -/
def isLowerLetter (c : Char) : Bool := 'a' ≤ c && c ≤ 'z'

/-- Alphanumeric characters (the claim's run-replacement keeps exactly
these; in particular an underscore is replaceable). -/
def isAlnumChar (c : Char) : Bool :=
  ('0' ≤ c && c ≤ '9') || ('a' ≤ c && c ≤ 'z') || ('A' ≤ c && c ≤ 'Z')

/-- Boundary insertion as worded by claim C2: separator at each
lower-LETTER-to-upper boundary. -/
def camelClaim : List Char → List Char
  | [] => []
  | [c] => [c]
  | c1 :: c2 :: rest =>
    if isLowerLetter c1 && isUpperAZ c2 then c1 :: '_' :: camelClaim (c2 :: rest)
    else c1 :: camelClaim (c2 :: rest)

/-- Run replacement as worded by claim C2: every maximal run of
non-alphanumeric characters becomes one separator. -/
def collapseClaim (l : List Char) : List Char := collapseRunsWith isAlnumChar l

/-- The canonical name prescribed by claim C2, read literally. -/
def normalizeClaimC2 (s : String) : String :=
  String.mk (lowerStr (stripSep (collapseClaim (camelClaim s.data))))

/-- Boundary insertion as worded by the amended claim: emit the head
character, then for each adjacent pair emit a separator exactly when a
lowercase letter or digit is followed by an uppercase letter. -/
def camelAmended (l : List Char) : List Char :=
  match l with
  | [] => []
  | c :: rest =>
    c :: ((l.zip rest).flatMap
      (fun p => if isLowerDigit p.1 && isUpperAZ p.2 then ['_', p.2] else [p.2]))

/-- The canonical name prescribed by the amended claim C2: boundaries
include digit-to-uppercase, and replaced runs are runs of characters that
are neither alphanumeric nor underscore (pre-existing underscores are
kept). -/
def normalizeAmended (s : String) : String :=
  String.mk (lowerStr (stripSep (collapseSub (camelAmended s.data))))

/-- Whether a character list contains two adjacent underscores. -/
def hasAdjSep : List Char → Bool
  | a :: b :: rest => (a == '_' && b == '_') || hasAdjSep (b :: rest)
  | _ => false

/-! ## Feature transform (transform.py, `transform_data`)

Numeric pandas columns become `List (Option ℚ)` (a `none` is a NaN), string
columns become `List (Option String)`. -/

/-- Pandas `Series.median()` with the default `skipna` semantics, applied to
the non-null values: sort, take the middle element for odd length, the mean
of the two middle elements for even length, and NaN (here `none`) for an
empty list. -/
def median (xs : List ℚ) : Option ℚ :=
  if xs.length = 0 then none
  else if xs.length % 2 = 1 then
    some ((xs.mergeSort (fun a b => a ≤ b)).getD (xs.length / 2) 0)
  else
    some (((xs.mergeSort (fun a b => a ≤ b)).getD (xs.length / 2 - 1) 0 +
      (xs.mergeSort (fun a b => a ≤ b)).getD (xs.length / 2) 0) / 2)

/-- `df[col] = df[col].fillna(df[col].median())` (transform.py line 25): when
the column has at least one non-null value, every null is replaced by the
column's median; a fully null column is unchanged (filling with NaN). -/
def fillna_num (col : List (Option ℚ)) : List (Option ℚ) :=
  match median (col.filterMap id) with
  | none => col
  | some m => col.map (fun v => some (v.getD m))

/-- `df[cat_cols] = df[cat_cols].fillna("Unknown")` (transform.py line 29)
applied to one string-typed column. -/
def fillna_cat (col : List (Option String)) : List (Option String) :=
  col.map (fun v => some (v.getD "Unknown"))

/-- The columns of the dataframe that the missing-value step of
`transform_data` touches: the three required numeric columns (with
`TotalCharges` already coerced by `pd.to_numeric(..., errors="coerce")`) and
the string-typed (object-dtype) columns. -/
structure StagedFrame where
  tenure : List (Option ℚ)
  MonthlyCharges : List (Option ℚ)
  TotalCharges : List (Option ℚ)
  catCols : List (List (Option String))

/-- The missing-value imputation step of `transform_data` (transform.py
lines 22-29). -/
def imputeMissing (df : StagedFrame) : StagedFrame :=
  { tenure := fillna_num df.tenure
    MonthlyCharges := fillna_num df.MonthlyCharges
    TotalCharges := fillna_num df.TotalCharges
    catCols := df.catCols.map fillna_cat }

/-- `pd.cut(df["tenure"], bins=[-1, 12, 36, 60, np.inf], labels=["New",
"Regular", "Loyal", "Champion"])` (transform.py lines 36-38): `pd.cut` with
the default `right=True` forms the right-closed intervals `(-1,12]`,
`(12,36]`, `(36,60]`, `(60,inf)`; a value outside every bin (any tenure
at most -1) gets no label (NaN). -/
def tenure_group (t : ℚ) : Option String :=
  if -1 < t ∧ t ≤ 12 then some "New"
  else if 12 < t ∧ t ≤ 36 then some "Regular"
  else if 36 < t ∧ t ≤ 60 then some "Loyal"
  else if 60 < t then some "Champion"
  else none

/-! ## Validator (validate.py, `run_validation`) -/

/-- The `contract_code_ok` check (validate.py lines 114-116):
`set(df["contract_type_code"].unique()).issubset(\x7b0, 1, 2\x7d)`. -/
def contract_code_ok (codes : List ℤ) : Bool :=
  codes.dedup.all (fun c => c == 0 || c == 1 || c == 2)

/-! ## Batch loader (load.py, `load_to_supabase`)

The dataframe rows are abstracted to an arbitrary type; the Supabase client
is abstracted to the boolean "a client was returned"; each call to
`supabase.table(...).insert(records).execute()` is abstracted to an oracle
mapping the index of the call (counted across the whole run) to its outcome.
The observable effects - insert calls, `time.sleep`, and writing the local
fallback CSV - are recorded as an event trace. -/

/-- Outcome of one `insert(...).execute()` call: a response carrying a
truthy `error` field, a raised exception, or success (any other
response). -/
inductive InsertOutcome where
  | ok
  | errField (msg : String)
  | exc (msg : String)
deriving DecidableEq

/-- Python `needle in hay` on the underlying characters: does `needle`
start `hay`? -/
def startsWithChars : List Char → List Char → Bool
  | [], _ => true
  | _ :: _, [] => false
  | a :: as, b :: bs => a == b && startsWithChars as bs

/-- Python `needle in hay` on the underlying characters: does `needle`
occur contiguously in `hay`? -/
def hasSubChars (needle : List Char) : List Char → Bool
  | [] => startsWithChars needle []
  | c :: cs => startsWithChars needle (c :: cs) || hasSubChars needle cs

/-- Python `needle in hay` for strings (case-sensitive substring test). -/
def substrOf (needle hay : String) : Bool := hasSubChars needle.data hay.data

/-- The substring occurrence relation, stated as a decomposition of the
haystack; used to state claims about the classifier. -/
def IsSubstrOf (needle hay : String) : Prop :=
  ∃ l r, hay.data = l ++ needle.data ++ r

/-- The schema-mismatch classifier of load.py (lines 186 and 212):
an error message is a schema mismatch exactly when it contains one of the
substrings "Could not find", "PGRST", "column". -/
def isSchemaMsg (msg : String) : Bool :=
  substrOf "Could not find" msg || substrOf "PGRST" msg || substrOf "column" msg

/-- Whether an insert outcome takes the schema-mismatch branch of the
loader. -/
def isSchemaOutcome : InsertOutcome → Bool
  | .ok => false
  | .errField m => isSchemaMsg m
  | .exc m => isSchemaMsg m

/-- Whether an insert outcome is a transient failure (a failure whose
message does not match the schema signature), which the loader retries. -/
def isTransientFail : InsertOutcome → Bool
  | .ok => false
  | .errField m => !isSchemaMsg m
  | .exc m => !isSchemaMsg m

/-- Observable side effects of the loader. -/
inductive Event (α : Type) where
  | insert (records : List α)
  | sleep (seconds : ℚ)
  | writeLocal (rows : List α)
deriving DecidableEq

/-- Terminal state of the per-batch retry loop. -/
inductive BatchRes where
  | succeeded
  | exhausted
  | schemaAbort
deriving DecidableEq

/-- Terminal state of one `load_to_supabase` run. -/
inductive LoadStatus where
  | fileMissing
  | localMode
  | completed
  | schemaAbort
deriving DecidableEq

/-- Result of a `load_to_supabase` run: the event trace, the number of
insert calls issued, and how the run ended.  (The Python function always
returns normally: every failure path either `return`s or is swallowed by
the enclosing `try/except`.) -/
structure LoadRun (α : Type) where
  events : List (Event α)
  calls : ℕ
  status : LoadStatus
deriving DecidableEq

/-- The batching of load.py line 161: `for i in range(0, total_rows,
batch_size): batch = df.iloc[i:i + batch_size]`, i.e. successive slices of
`batch_size` rows in order.  (`batch_size = 0` raises in Python and is
outside every claim; the equations below are only ever used with
`1 ≤ B`.) -/
def chunks (B : ℕ) : List α → List (List α)
  | [] => []
  | a :: l => (a :: l.take (B - 1)) :: chunks B (l.drop (B - 1))
termination_by l => l.length
decreasing_by
  simp [List.length_drop]
  exact Nat.lt_succ_of_le (Nat.sub_le _ _)

/-- The retry loop of load.py lines 176-228 for a single batch.
`remaining` is `max_retries - attempt`, so the code's post-increment test
`attempt > max_retries` is the `remaining = 0` case; `attempt` is the
code's `attempt` variable, used only in the backoff exponent
`backoff_factor ** attempt` (slept after the increment, hence
`attempt + 1`); `callIdx` numbers the insert calls across the run.  The
`errField` and `exc` branches mirror the code's identical handling of a
response-level error and a raised exception. -/
def attemptBatch (records : List α) (bf : ℚ) (oracle : ℕ → InsertOutcome) :
    ℕ → ℕ → ℕ → List (Event α) × ℕ × BatchRes
  | remaining, attempt, callIdx =>
    match oracle callIdx with
    | .ok => ([.insert records], callIdx + 1, .succeeded)
    | .errField msg =>
      if isSchemaMsg msg then ([.insert records], callIdx + 1, .schemaAbort)
      else
        match remaining with
        | 0 => ([.insert records], callIdx + 1, .exhausted)
        | r + 1 =>
          let rest := attemptBatch records bf oracle r (attempt + 1) (callIdx + 1)
          (.insert records :: .sleep (bf ^ (attempt + 1)) :: rest.1, rest.2)
    | .exc msg =>
      if isSchemaMsg msg then ([.insert records], callIdx + 1, .schemaAbort)
      else
        match remaining with
        | 0 => ([.insert records], callIdx + 1, .exhausted)
        | r + 1 =>
          let rest := attemptBatch records bf oracle r (attempt + 1) (callIdx + 1)
          (.insert records :: .sleep (bf ^ (attempt + 1)) :: rest.1, rest.2)

/-- The per-batch loop of load.py lines 161-228: each batch runs the retry
loop; a `schemaAbort` writes the whole dataframe `dfAll` to the local
fallback and stops; `succeeded` and `exhausted` (skip the batch) both
continue with the remaining batches. -/
def processBatches (dfAll : List α) (bf : ℚ) (mr : ℕ) (oracle : ℕ → InsertOutcome) :
    List (List α) → ℕ → LoadRun α
  | [], callIdx => ⟨[], callIdx, .completed⟩
  | b :: bs, callIdx =>
    let r := attemptBatch b bf oracle mr 0 callIdx
    match r.2.2 with
    | .schemaAbort => ⟨r.1 ++ [.writeLocal dfAll], r.2.1, .schemaAbort⟩
    | _ =>
      let rest := processBatches dfAll bf mr oracle bs r.2.1
      ⟨r.1 ++ rest.events, rest.calls, rest.status⟩

/-- Python truthiness of an optional environment string: `not url` is true
when the variable is unset or the empty string. -/
def pyTruthy (s : Option String) : Bool :=
  match s with
  | none => false
  | some v => !(v == "")

/-- `get_supabase_client` (load.py lines 14-24): a client is returned
exactly when both `SUPABASE_URL` and `SUPABASE_KEY` are set and
non-empty. -/
def get_supabase_client (url key : Option String) : Bool :=
  pyTruthy url && pyTruthy key

/-- `load_to_supabase` (load.py lines 95-233).  `fileExists` abstracts the
`os.path.exists(staged_path)` check; `df` is the dataframe with mapped
column names; when no client is available the whole dataframe is written to
the local fallback before any batching; otherwise the batches are processed
in order. -/
def load_to_supabase (url key : Option String) (fileExists : Bool) (df : List α)
    (batch_size max_retries : ℕ) (backoff_factor : ℚ)
    (oracle : ℕ → InsertOutcome) : LoadRun α :=
  if !fileExists then ⟨[], 0, .fileMissing⟩
  else if !(get_supabase_client url key) then ⟨[.writeLocal df], 0, .localMode⟩
  else processBatches df backoff_factor max_retries oracle (chunks batch_size df) 0

/-- The event trace claim C8 predicts for a batch whose insert keeps
failing transiently when `k` more retries are allowed and the current
attempt number is `att`: an insert, then - before each retry - a sleep of
`backoff_factor ^ attempt` where `attempt` is the next attempt number,
ending with the final insert (hence `k + 1` inserts in total and sleeps
`bf ^ (att+1), ..., bf ^ (att+k)`). -/
def retryTrace {α : Type} (b : List α) (bf : ℚ) : ℕ → ℕ → List (Event α)
  | _, 0 => [Event.insert b]
  | att, k + 1 =>
    Event.insert b :: Event.sleep (bf ^ (att + 1)) :: retryTrace b bf (att + 1) k

/-- Concrete staged frame used to witness claim C5: every required numeric
column has at least one null and at least one non-null value. -/
def dfC5 : StagedFrame :=
  { tenure := [some 1, none, some 3, some 2]
    MonthlyCharges := [some 50, none]
    TotalCharges := [none, some 7]
    catCols := [[none, some "DSL"]] }

/-! ## Helper lemmas -/

theorem data_mk (l : List Char) : (String.mk l).data = l := rfl

theorem char_le_iff {a b : Char} : a ≤ b ↔ a.toNat ≤ b.toNat := by
  rw [Char.le_def]
  simp [UInt32.le_def, BitVec.le_def, Char.toNat, UInt32.toNat]

theorem toLower_eq_self {c : Char} (h : isUpperAZ c = false) : c.toLower = c := by
  have hA : ¬(c.toNat ≥ 65 ∧ c.toNat ≤ 90) := by
    intro hc
    have h1 : 'A' ≤ c := char_le_iff.mpr (by simpa using hc.1)
    have h2 : c ≤ 'Z' := char_le_iff.mpr (by simpa using hc.2)
    simp [isUpperAZ, h1, h2] at h
  simp [Char.toLower, hA]

theorem lowerStr_id {l : List Char} (h : ∀ c ∈ l, isUpperAZ c = false) :
    lowerStr l = l := by
  induction l with
  | nil => rfl
  | cons c t ih =>
    simp only [lowerStr, List.map_cons]
    rw [toLower_eq_self (h c (by simp))]
    have := ih (fun d hd => h d (by simp [hd]))
    simp only [lowerStr] at this
    rw [this]

theorem camelAmended_eq_camelSub (l : List Char) : camelAmended l = camelSub l := by
  induction l using camelSub.induct with
  | case1 => rfl
  | case2 c => rfl
  | case3 c1 c2 rest hb ih =>
    have e1 : camelSub (c1 :: c2 :: rest) = c1 :: '_' :: camelSub (c2 :: rest) := by
      simp only [camelSub]
      rw [if_pos hb]
    have e2 : camelAmended (c1 :: c2 :: rest) = c1 :: '_' :: camelAmended (c2 :: rest) := by
      simp only [camelAmended, List.zip_cons_cons, List.flatMap_cons]
      rw [if_pos hb]
      simp
    rw [e2, e1, ih]
  | case4 c1 c2 rest hb ih =>
    have e1 : camelSub (c1 :: c2 :: rest) = c1 :: camelSub (c2 :: rest) := by
      simp only [camelSub]
      rw [if_neg hb]
    have e2 : camelAmended (c1 :: c2 :: rest) = c1 :: camelAmended (c2 :: rest) := by
      simp only [camelAmended, List.zip_cons_cons, List.flatMap_cons]
      rw [if_neg hb]
      simp
    rw [e2, e1, ih]

theorem camelSub_id_of_no_upper {l : List Char}
    (h : ∀ c ∈ l, isUpperAZ c = false) : camelSub l = l := by
  induction l using camelSub.induct with
  | case1 => rfl
  | case2 c => rfl
  | case3 c1 c2 rest hb ih =>
    have := h c2 (by simp)
    simp [this] at hb
  | case4 c1 c2 rest hb ih =>
    simp only [camelSub, if_neg hb]
    rw [ih (fun d hd => h d (by simp at hd ⊢; tauto))]

theorem dropWhile_head_not {p : Char → Bool} {l t : List Char} {d : Char}
    (h : l.dropWhile p = d :: t) : p d = false := by
  induction l with
  | nil => simp at h
  | cons a m ih =>
    rw [List.dropWhile_cons] at h
    by_cases hp : p a = true
    · rw [if_pos hp] at h
      exact ih h
    · rw [if_neg hp] at h
      cases h
      simpa using hp

theorem mem_collapseRunsWith {word : Char → Bool} {c : Char} :
    ∀ {l : List Char}, c ∈ collapseRunsWith word l → c ∈ l ∨ c = '_' := by
  intro l
  induction l using collapseRunsWith.induct word with
  | case1 => intro h; simp [collapseRunsWith] at h
  | case2 a rest hw ih =>
    intro h
    rw [collapseRunsWith, if_pos hw] at h
    rcases List.mem_cons.mp h with h | h
    · exact Or.inl (by simp [h])
    · rcases ih h with h | h
      · exact Or.inl (by simp [h])
      · exact Or.inr h
  | case3 a rest hw ih =>
    intro h
    rw [collapseRunsWith, if_neg hw] at h
    rcases List.mem_cons.mp h with h | h
    · exact Or.inr h
    · rcases ih h with h | h
      · exact Or.inl (List.mem_cons_of_mem a ((List.dropWhile_sublist _).subset h))
      · exact Or.inr h

theorem hasAdjSep_cons (a : Char) (t : List Char) :
    hasAdjSep (a :: t) =
      (((a == '_') && (t.head? == some '_')) || hasAdjSep t) := by
  cases t <;> simp [hasAdjSep]

theorem hasAdjSep_collapse {word : Char → Bool} :
    ∀ {l : List Char}, '_' ∉ l → hasAdjSep (collapseRunsWith word l) = false := by
  intro l
  induction l using collapseRunsWith.induct word with
  | case1 =>
    intro _
    rw [collapseRunsWith]
    rfl
  | case2 a rest hw ih =>
    intro hmem
    rw [collapseRunsWith, if_pos hw, hasAdjSep_cons]
    have ha : (a == '_') = false := by
      simp only [beq_eq_false_iff_ne, ne_eq]
      intro h
      exact hmem (by simp [h])
    rw [ha, ih (fun h => hmem (by simp [h]))]
    rfl
  | case3 a rest hw ih =>
    intro hmem
    rw [collapseRunsWith, if_neg hw, hasAdjSep_cons]
    have hrest : '_' ∉ rest := fun h => hmem (by simp [h])
    have hdrop : '_' ∉ rest.dropWhile (fun d => !word d) :=
      fun h => hrest ((List.dropWhile_sublist _).subset h)
    rw [ih hdrop]
    have hhead :
        ((collapseRunsWith word (rest.dropWhile (fun d => !word d))).head? ==
          some '_') = false := by
      cases hX : rest.dropWhile (fun d => !word d) with
      | nil => rw [collapseRunsWith]; rfl
      | cons d m =>
        have hd : word d = true := by
          have := dropWhile_head_not hX
          simpa using this
        rw [collapseRunsWith, if_pos hd]
        have : d ≠ '_' := by
          intro h
          exact hdrop (by rw [hX, h]; simp)
        simpa using this
    rw [hhead]
    rfl

theorem hasAdjSep_dropWhile {p : Char → Bool} :
    ∀ {l : List Char}, hasAdjSep l = false → hasAdjSep (l.dropWhile p) = false := by
  intro l
  induction l with
  | nil => intro h; simpa using h
  | cons a t ih =>
    intro h
    rw [hasAdjSep_cons, Bool.or_eq_false_iff] at h
    rw [List.dropWhile_cons]
    split
    · exact ih h.2
    · rw [hasAdjSep_cons, Bool.or_eq_false_iff]
      exact ⟨h.1, h.2⟩

theorem dropTrailSep_head {l : List Char} {b : Char}
    (h : (dropTrailSep l).head? = some b) : l.head? = some b := by
  cases l with
  | nil => simp [dropTrailSep] at h
  | cons c rest =>
    simp only [dropTrailSep] at h
    split at h
    · simp at h
    · simpa using h

theorem dropTrailSep_sublist (l : List Char) : (dropTrailSep l).Sublist l := by
  induction l with
  | nil => simp [dropTrailSep]
  | cons c rest ih =>
    simp only [dropTrailSep]
    split
    · exact List.nil_sublist _
    · exact List.Sublist.cons₂ c ih

theorem hasAdjSep_dropTrailSep :
    ∀ {l : List Char}, hasAdjSep l = false → hasAdjSep (dropTrailSep l) = false := by
  intro l
  induction l with
  | nil => intro h; simpa [dropTrailSep] using h
  | cons c rest ih =>
    intro h
    rw [hasAdjSep_cons, Bool.or_eq_false_iff] at h
    simp only [dropTrailSep]
    split
    · rfl
    · rw [hasAdjSep_cons, Bool.or_eq_false_iff]
      refine ⟨?_, ih h.2⟩
      cases hh : (dropTrailSep rest).head? with
      | none => simp
      | some b =>
        have hb : rest.head? = some b := dropTrailSep_head hh
        have h1 := h.1
        rw [hb] at h1
        exact h1

theorem stripSep_subset {l : List Char} {c : Char} (h : c ∈ stripSep l) : c ∈ l := by
  unfold stripSep at h
  exact (List.dropWhile_sublist _).subset ((dropTrailSep_sublist _).subset h)

/-! ## Claim C2 (Column Normalizer canonical form) -/

unseal collapseRunsWith in
/-- C2, counterexample.  The claim describes the canonical form as inserting
a separator at lower-to-upper LETTER boundaries and replacing every maximal
run of NON-ALPHANUMERIC characters (which would include underscores) by one
separator.  On "a1B__c" the code inserts a separator at the digit-to-upper
boundary `1B` and keeps the underscore run `__` verbatim, giving "a1_b__c",
while the claimed algorithm gives "a1b_c".  On "a__b" (a name without
uppercase letters) the canonical name "a__b" has two adjacent separators,
refuting the claim's final clause. -/
theorem C2_counterexample :
    _normalize_col "a1B__c" ≠ normalizeClaimC2 "a1B__c" ∧
    _normalize_col "a1B__c" = "a1_b__c" ∧
    normalizeClaimC2 "a1B__c" = "a1b_c" ∧
    ("a__b".data.any Char.isUpper = false ∧
      hasAdjSep (_normalize_col "a__b").data = true) := by
  decide

/-- C2, amended: for every input column name, the canonical form is obtained
by inserting a separator at each boundary where a lowercase letter OR DIGIT
is followed by an uppercase letter, replacing every maximal run of
characters that are neither alphanumeric NOR UNDERSCORE with exactly one
separator (underscores already present are kept verbatim), stripping leading
and trailing separators, and lowercasing; no two adjacent separators ever
appear in the canonical name of a name that contains neither uppercase
letters nor underscores. -/
theorem C2_normalizer_amended (s : String) :
    _normalize_col s = normalizeAmended s ∧
    ((∀ c ∈ s.data, isUpperAZ c = false ∧ c ≠ '_') →
      hasAdjSep (_normalize_col s).data = false) := by
  constructor
  · unfold _normalize_col normalizeAmended
    rw [camelAmended_eq_camelSub]
  · intro h
    unfold _normalize_col
    rw [camelSub_id_of_no_upper (fun c hc => (h c hc).1)]
    rw [data_mk]
    have hnoupper : ∀ c ∈ stripSep (collapseSub s.data), isUpperAZ c = false := by
      intro c hc
      rcases mem_collapseRunsWith (stripSep_subset hc) with hm | hm
      · exact (h c hm).1
      · rw [hm]
        rfl
    rw [lowerStr_id hnoupper]
    have hns : '_' ∉ s.data := by
      intro hmem
      exact (h '_' hmem).2 rfl
    unfold stripSep
    exact hasAdjSep_dropTrailSep (hasAdjSep_dropWhile (hasAdjSep_collapse hns))

/-- C2, witness for the amended theorem: a concrete name without uppercase
letters or underscores whose canonical form has no adjacent separators. -/
theorem C2_amended_witness : hasAdjSep (_normalize_col "ab--cd").data = false :=
  (C2_normalizer_amended "ab--cd").2 (by decide)

/-! ## Claim C7 (compatibility rule removes separators) -/

/-- C7: for every `isupper` character table - in particular Python's
Unicode-aware one - and every original column name containing a character
that table classifies as uppercase, the final mapped name contains no
separator (underscore) characters; for every original name without such a
character, the canonical separator-bearing name is kept unchanged. -/
theorem C7_db_name (pyUpper : Char → Bool) (s : String) :
    (hasUpperPy pyUpper s = true →
      ((db_name pyUpper s).data.all (fun c => !(c == '_'))) = true) ∧
    (hasUpperPy pyUpper s = false → db_name pyUpper s = _normalize_col s) := by
  constructor
  · intro h
    simp only [db_name, if_pos h, data_mk, List.all_eq_true]
    intro x hx
    exact (List.mem_filter.mp hx).2
  · intro h
    simp [db_name, h]

unseal collapseRunsWith in
/-- C7, witness, instantiating the table at the ASCII fragment (on which
Python's `isupper` is exactly `A`-`Z`): "MonthlyCharges" contains uppercase
letters and its mapped name has no underscore; "tenure" has none and is
kept as its canonical form. -/
theorem C7_witness :
    ((db_name Char.isUpper "MonthlyCharges").data.all (fun c => !(c == '_'))) = true ∧
    db_name Char.isUpper "tenure" = _normalize_col "tenure" :=
  ⟨(C7_db_name Char.isUpper "MonthlyCharges").1 (by decide),
    (C7_db_name Char.isUpper "tenure").2 (by decide)⟩

/-! ## Claim C3 (tenure_group buckets) -/

/-- C3, counterexample.  The claim states the lowest bucket is `(-inf, 12]`
and that every tenure value, including negatives, gets one of the four
labels; but `pd.cut` with bins `[-1, 12, 36, 60, inf]` gives tenure `-1`
(and anything below) no label at all. -/
theorem C3_counterexample :
    tenure_group (-1) = none ∧ tenure_group (-1) ≠ some "New" := by
  decide

/-- C3, amended: `tenure_group` is determined by the right-closed intervals
`(-1,12] → "New"`, `(12,36] → "Regular"`, `(36,60] → "Loyal"`,
`(60,inf) → "Champion"`; tenure values at most -1 receive no label; for the
tenure values `[0, 12, 13, 36, 37, 60, 61]` the outputs are
`["New","New","Regular","Regular","Loyal","Loyal","Champion"]`. -/
theorem C3_tenure_group_amended :
    (∀ t : ℚ,
      (t ≤ -1 → tenure_group t = none) ∧
      (-1 < t → t ≤ 12 → tenure_group t = some "New") ∧
      (12 < t → t ≤ 36 → tenure_group t = some "Regular") ∧
      (36 < t → t ≤ 60 → tenure_group t = some "Loyal") ∧
      (60 < t → tenure_group t = some "Champion")) ∧
    [(0 : ℚ), 12, 13, 36, 37, 60, 61].map tenure_group =
      [some "New", some "New", some "Regular", some "Regular", some "Loyal",
        some "Loyal", some "Champion"] := by
  constructor
  · intro t
    refine ⟨fun h => ?_, fun h1 h2 => ?_, fun h1 h2 => ?_, fun h1 h2 => ?_,
      fun h => ?_⟩
    · have n1 : ¬(-1 : ℚ) < t := not_lt.mpr h
      have n2 : ¬(12 : ℚ) < t := not_lt.mpr (by linarith)
      have n3 : ¬(36 : ℚ) < t := not_lt.mpr (by linarith)
      have n4 : ¬(60 : ℚ) < t := not_lt.mpr (by linarith)
      simp [tenure_group, n1, n2, n3, n4]
    · simp [tenure_group, h1, h2]
    · have n1 : ¬t ≤ (12 : ℚ) := not_le.mpr h1
      simp [tenure_group, n1, h1, h2]
    · have n1 : ¬t ≤ (12 : ℚ) := not_le.mpr (by linarith)
      have n2 : ¬t ≤ (36 : ℚ) := not_le.mpr h1
      simp [tenure_group, n1, n2, h1, h2]
    · have n1 : ¬t ≤ (12 : ℚ) := not_le.mpr (by linarith)
      have n2 : ¬t ≤ (36 : ℚ) := not_le.mpr (by linarith)
      have n3 : ¬t ≤ (60 : ℚ) := not_le.mpr h
      simp [tenure_group, n1, n2, n3, h]
  · decide

/-- C3, witness for the amended theorem at concrete tenure values in each
interval. -/
theorem C3_amended_witness :
    tenure_group (-3) = none ∧ tenure_group 5 = some "New" ∧
    tenure_group 20 = some "Regular" ∧ tenure_group 50 = some "Loyal" ∧
    tenure_group 100 = some "Champion" :=
  ⟨(C3_tenure_group_amended.1 (-3)).1 (by norm_num),
    (C3_tenure_group_amended.1 5).2.1 (by norm_num) (by norm_num),
    (C3_tenure_group_amended.1 20).2.2.1 (by norm_num) (by norm_num),
    (C3_tenure_group_amended.1 50).2.2.2.1 (by norm_num) (by norm_num),
    (C3_tenure_group_amended.1 100).2.2.2.2 (by norm_num)⟩

/-! ## Claim C9 (validator contract-code check) -/

/-- C9: `contract_code_ok` is true exactly when the set of observed
`contract_type_code` values is a subset of `\x7b0, 1, 2\x7d`; in particular
the presence of a `-1` sentinel makes the check false. -/
theorem C9_contract_code_ok (codes : List ℤ) :
    (contract_code_ok codes = true ↔
      {c : ℤ | c ∈ codes} ⊆ ({0, 1, 2} : Set ℤ)) ∧
    ((-1 : ℤ) ∈ codes → contract_code_ok codes = false) := by
  have hmain : contract_code_ok codes = true ↔
      ∀ c ∈ codes, c = 0 ∨ c = 1 ∨ c = 2 := by
    unfold contract_code_ok
    rw [List.all_eq_true]
    constructor
    · intro h c hc
      have := h c (List.mem_dedup.mpr hc)
      simp at this
      tauto
    · intro h c hc
      have := h c (List.mem_dedup.mp hc)
      simp
      tauto
  constructor
  · rw [hmain]
    constructor
    · intro h c hc
      have := h c hc
      simp only [Set.mem_insert_iff, Set.mem_singleton_iff]
      tauto
    · intro h c hc
      have := h hc
      simp only [Set.mem_insert_iff, Set.mem_singleton_iff] at this
      tauto
  · intro hmem
    cases hcc : contract_code_ok codes with
    | false => rfl
    | true =>
      rcases hmain.mp hcc (-1) hmem with h | h | h <;> norm_num at h

/-- C9, witness: the staged value set containing the -1 sentinel fails the
check. -/
theorem C9_witness : contract_code_ok [0, 1, 2, -1] = false :=
  (C9_contract_code_ok [0, 1, 2, -1]).2 (by decide)

/-! ## Claim C6 (batch partition) -/

theorem chunks_flatten {α : Type} (B : ℕ) :
    ∀ l : List α, (chunks B l).flatten = l := by
  intro l
  induction l using chunks.induct B with
  | case1 =>
    rw [chunks]
    rfl
  | case2 a l ih =>
    rw [chunks, List.flatten_cons, ih]
    simp [List.take_append_drop]

theorem chunks_size {α : Type} (B : ℕ) (hB : 1 ≤ B) :
    ∀ l : List α, ∀ b ∈ chunks B l, b.length ≤ B := by
  intro l
  induction l using chunks.induct B with
  | case1 =>
    rw [chunks]
    intro b hb
    simp at hb
  | case2 a l ih =>
    rw [chunks]
    intro b hb
    rcases List.mem_cons.mp hb with h | h
    · rw [h]
      simp only [List.length_cons, List.length_take]
      have : (B - 1) ⊓ l.length ≤ B - 1 := inf_le_left
      omega
    · exact ih b h

theorem chunks_count {α : Type} (B : ℕ) (hB : 1 ≤ B) :
    ∀ l : List α, (chunks B l).length = (l.length + B - 1) / B := by
  intro l
  induction l using chunks.induct B with
  | case1 =>
    rw [chunks]
    simp [Nat.div_eq_of_lt (by omega : B - 1 < B)]
  | case2 a l ih =>
    rw [chunks, List.length_cons, ih]
    simp only [List.length_drop, List.length_cons]
    rw [show l.length + 1 + B - 1 = l.length + B by omega,
      Nat.add_div_right _ (by omega : 0 < B)]
    rcases le_or_lt l.length (B - 1) with h | h
    · rw [show l.length - (B - 1) + B - 1 = B - 1 by omega,
        Nat.div_eq_of_lt (by omega : B - 1 < B),
        Nat.div_eq_of_lt (by omega : l.length < B)]
    · rw [show l.length - (B - 1) + B - 1 = l.length by omega]

/-- C6: for every dataset and every batch size at least 1, the loader's
batching produces exactly the ceiling of N/B batches, each of size at most
B, whose in-order concatenation reproduces the original row sequence; an
empty dataset produces zero batches. -/
theorem C6_batching {α : Type} (rows : List α) (B : ℕ) (hB : 1 ≤ B) :
    (chunks B rows).length = (rows.length + B - 1) / B ∧
    (∀ b ∈ chunks B rows, b.length ≤ B) ∧
    (chunks B rows).flatten = rows ∧
    (rows = [] → chunks B rows = []) := by
  refine ⟨chunks_count B hB rows, chunks_size B hB rows, chunks_flatten B rows, ?_⟩
  intro h
  rw [h, chunks]

unseal chunks in
/-- C6, witness on a dataset of three rows with batch size two. -/
theorem C6_witness :
    (chunks 2 ([10, 20, 30] : List ℕ)).length = 2 ∧
    (chunks 2 ([10, 20, 30] : List ℕ)).flatten = [10, 20, 30] :=
  ⟨((C6_batching [10, 20, 30] 2 (by decide)).1).trans (by decide),
    (C6_batching [10, 20, 30] 2 (by decide)).2.2.1⟩

/-! ## Claim C5 (missing-value imputation) -/

theorem median_ne_none {xs : List ℚ} (h : xs ≠ []) : ∃ m, median xs = some m := by
  unfold median
  rw [if_neg (fun hc => h (List.length_eq_zero.mp hc))]
  split
  · exact ⟨_, rfl⟩
  · exact ⟨_, rfl⟩

theorem getD_map_fill (m : ℚ) :
    ∀ (l : List (Option ℚ)) (i : ℕ), i < l.length →
      (l.map (fun v => some (v.getD m))).getD i none =
        if l.getD i none = none then some m else l.getD i none := by
  intro l
  induction l with
  | nil =>
    intro i hi
    simp at hi
  | cons a t ih =>
    intro i hi
    cases i with
    | zero => cases a <;> rfl
    | succ n =>
      simp only [List.map_cons, List.getD_cons_succ]
      exact ih n (by simpa using hi)

theorem fillna_num_spec (col : List (Option ℚ)) (h : col.filterMap id ≠ []) :
    (∀ v ∈ fillna_num col, v ≠ none) ∧
    (∀ i : ℕ, i < col.length →
      (fillna_num col).getD i none =
        if col.getD i none = none then median (col.filterMap id)
        else col.getD i none) := by
  obtain ⟨m, hm⟩ := median_ne_none h
  have hcol : fillna_num col = col.map (fun v => some (v.getD m)) := by
    unfold fillna_num
    rw [hm]
  constructor
  · rw [hcol]
    intro v hv
    obtain ⟨w, _, rfl⟩ := List.mem_map.mp hv
    simp
  · intro i hi
    rw [hcol, getD_map_fill m col i hi, hm]

theorem getD_map_inbounds {α β : Type} (f : α → β) (d : α) (d2 : β) :
    ∀ (l : List α) (j : ℕ), j < l.length → (l.map f).getD j d2 = f (l.getD j d) := by
  intro l
  induction l with
  | nil =>
    intro j hj
    simp at hj
  | cons a t ih =>
    intro j hj
    cases j with
    | zero => rfl
    | succ n =>
      simp only [List.map_cons, List.getD_cons_succ]
      exact ih n (by simpa using hj)

theorem fillna_cat_getD :
    ∀ (l : List (Option String)) (i : ℕ), i < l.length →
      (fillna_cat l).getD i none = some ((l.getD i none).getD "Unknown") := by
  intro l
  induction l with
  | nil =>
    intro i hi
    simp at hi
  | cons a t ih =>
    intro i hi
    cases i with
    | zero => cases a <;> rfl
    | succ n =>
      simp only [fillna_cat, List.map_cons, List.getD_cons_succ]
      have := ih n (by simpa using hi)
      simpa [fillna_cat] using this

/-- C5: after the imputation step of the transform, provided each of the
three required numeric columns has at least one non-null value, no null
remains in those columns; each position holds the pre-imputation median of
the column's non-null values if it was null and its original value
otherwise; and every null in a string-typed column becomes the literal
"Unknown" (non-null entries are unchanged). -/
theorem C5_imputation (df : StagedFrame)
    (h1 : df.tenure.filterMap id ≠ [])
    (h2 : df.MonthlyCharges.filterMap id ≠ [])
    (h3 : df.TotalCharges.filterMap id ≠ []) :
    (∀ v ∈ (imputeMissing df).tenure, v ≠ none) ∧
    (∀ v ∈ (imputeMissing df).MonthlyCharges, v ≠ none) ∧
    (∀ v ∈ (imputeMissing df).TotalCharges, v ≠ none) ∧
    (∀ i : ℕ, i < df.tenure.length →
      (imputeMissing df).tenure.getD i none =
        if df.tenure.getD i none = none then median (df.tenure.filterMap id)
        else df.tenure.getD i none) ∧
    (∀ i : ℕ, i < df.MonthlyCharges.length →
      (imputeMissing df).MonthlyCharges.getD i none =
        if df.MonthlyCharges.getD i none = none then
          median (df.MonthlyCharges.filterMap id)
        else df.MonthlyCharges.getD i none) ∧
    (∀ i : ℕ, i < df.TotalCharges.length →
      (imputeMissing df).TotalCharges.getD i none =
        if df.TotalCharges.getD i none = none then
          median (df.TotalCharges.filterMap id)
        else df.TotalCharges.getD i none) ∧
    (∀ j i : ℕ, j < df.catCols.length → i < (df.catCols.getD j []).length →
      ((imputeMissing df).catCols.getD j []).getD i none =
        some (((df.catCols.getD j []).getD i none).getD "Unknown")) := by
  refine ⟨(fillna_num_spec df.tenure h1).1, (fillna_num_spec df.MonthlyCharges h2).1,
    (fillna_num_spec df.TotalCharges h3).1, (fillna_num_spec df.tenure h1).2,
    (fillna_num_spec df.MonthlyCharges h2).2, (fillna_num_spec df.TotalCharges h3).2,
    ?_⟩
  intro j i hj hi
  have hmap : (imputeMissing df).catCols.getD j [] = fillna_cat (df.catCols.getD j []) := by
    simp only [imputeMissing]
    exact getD_map_inbounds fillna_cat [] [] df.catCols j hj
  rw [hmap]
  exact fillna_cat_getD (df.catCols.getD j []) i hi

unseal List.merge List.mergeSort in
/-- C5, witness: on `dfC5` the null tenure entry is imputed with the
pre-imputation median 2 of the non-null tenure values, and a null
categorical entry becomes "Unknown". -/
theorem C5_witness :
    (imputeMissing dfC5).tenure.getD 1 none = median (dfC5.tenure.filterMap id) ∧
    (imputeMissing dfC5).tenure.getD 1 none = some 2 ∧
    ((imputeMissing dfC5).catCols.getD 0 []).getD 0 none = some "Unknown" := by
  have h := C5_imputation dfC5 (by decide) (by decide) (by decide)
  have ht := h.2.2.2.1 1 (by decide)
  have hc := h.2.2.2.2.2.2 0 0 (by decide) (by decide)
  refine ⟨?_, ?_, ?_⟩
  · rw [ht]
    decide
  · rw [ht]
    decide
  · rw [hc]
    decide

/-! ## Loader lemmas: one-step equations for the retry loop -/

theorem attemptBatch_ok {α : Type} {b : List α} {bf : ℚ} {oracle : ℕ → InsertOutcome}
    {rem att c : ℕ} (h : oracle c = .ok) :
    attemptBatch b bf oracle rem att c = ([.insert b], c + 1, .succeeded) := by
  cases rem with
  | zero =>
    rw [attemptBatch.eq_1, h]
  | succ r =>
    rw [attemptBatch.eq_2, h]

theorem attemptBatch_errField_schema {α : Type} {b : List α} {bf : ℚ}
    {oracle : ℕ → InsertOutcome} {rem att c : ℕ} {m : String}
    (h : oracle c = .errField m) (hs : isSchemaMsg m = true) :
    attemptBatch b bf oracle rem att c = ([.insert b], c + 1, .schemaAbort) := by
  cases rem with
  | zero =>
    rw [attemptBatch.eq_1, h]
    simp [hs]
  | succ r =>
    rw [attemptBatch.eq_2, h]
    simp [hs]

theorem attemptBatch_errField_zero {α : Type} {b : List α} {bf : ℚ}
    {oracle : ℕ → InsertOutcome} {att c : ℕ} {m : String}
    (h : oracle c = .errField m) (hs : isSchemaMsg m = false) :
    attemptBatch b bf oracle 0 att c = ([.insert b], c + 1, .exhausted) := by
  rw [attemptBatch.eq_1, h]
  simp [hs]

theorem attemptBatch_errField_succ {α : Type} {b : List α} {bf : ℚ}
    {oracle : ℕ → InsertOutcome} {r att c : ℕ} {m : String}
    (h : oracle c = .errField m) (hs : isSchemaMsg m = false) :
    attemptBatch b bf oracle (r + 1) att c =
      (Event.insert b :: Event.sleep (bf ^ (att + 1)) ::
        (attemptBatch b bf oracle r (att + 1) (c + 1)).1,
        (attemptBatch b bf oracle r (att + 1) (c + 1)).2) := by
  rw [attemptBatch.eq_2, h]
  simp [hs]

theorem attemptBatch_exc_schema {α : Type} {b : List α} {bf : ℚ}
    {oracle : ℕ → InsertOutcome} {rem att c : ℕ} {m : String}
    (h : oracle c = .exc m) (hs : isSchemaMsg m = true) :
    attemptBatch b bf oracle rem att c = ([.insert b], c + 1, .schemaAbort) := by
  cases rem with
  | zero =>
    rw [attemptBatch.eq_1, h]
    simp [hs]
  | succ r =>
    rw [attemptBatch.eq_2, h]
    simp [hs]

theorem attemptBatch_exc_zero {α : Type} {b : List α} {bf : ℚ}
    {oracle : ℕ → InsertOutcome} {att c : ℕ} {m : String}
    (h : oracle c = .exc m) (hs : isSchemaMsg m = false) :
    attemptBatch b bf oracle 0 att c = ([.insert b], c + 1, .exhausted) := by
  rw [attemptBatch.eq_1, h]
  simp [hs]

theorem attemptBatch_exc_succ {α : Type} {b : List α} {bf : ℚ}
    {oracle : ℕ → InsertOutcome} {r att c : ℕ} {m : String}
    (h : oracle c = .exc m) (hs : isSchemaMsg m = false) :
    attemptBatch b bf oracle (r + 1) att c =
      (Event.insert b :: Event.sleep (bf ^ (att + 1)) ::
        (attemptBatch b bf oracle r (att + 1) (c + 1)).1,
        (attemptBatch b bf oracle r (att + 1) (c + 1)).2) := by
  rw [attemptBatch.eq_2, h]
  simp [hs]

theorem attemptBatch_spec {α : Type} (b : List α) (bf : ℚ) (oracle : ℕ → InsertOutcome) :
    ∀ (rem att c : ℕ),
      c < (attemptBatch b bf oracle rem att c).2.1 ∧
      ((attemptBatch b bf oracle rem att c).2.2 = .schemaAbort →
        ∃ pre, (attemptBatch b bf oracle rem att c).1 = pre ++ [.insert b]) ∧
      ((attemptBatch b bf oracle rem att c).2.2 ≠ .schemaAbort →
        ∀ n, c ≤ n → n < (attemptBatch b bf oracle rem att c).2.1 →
          isSchemaOutcome (oracle n) = false) := by
  intro rem att c
  induction rem, att, c using attemptBatch.induct b bf oracle with
  | case1 rem att c h =>
    rw [attemptBatch_ok h]
    refine ⟨Nat.lt_succ_self c, fun hc => by simp at hc, fun _ n h1 h2 => ?_⟩
    have h2a : n < c + 1 := h2
    have hn : n = c := by omega
    rw [hn, h]
    rfl
  | case2 rem att c m h hs =>
    rw [attemptBatch_errField_schema h hs]
    exact ⟨Nat.lt_succ_self c, fun _ => ⟨[], rfl⟩, fun hc => by simp at hc⟩
  | case3 att c m h hs =>
    have hs2 : isSchemaMsg m = false := by simpa using hs
    rw [attemptBatch_errField_zero h hs2]
    refine ⟨Nat.lt_succ_self c, fun hc => by simp at hc, fun _ n h1 h2 => ?_⟩
    have h2a : n < c + 1 := h2
    have hn : n = c := by omega
    rw [hn, h]
    exact hs2
  | case4 att c m h hs r ih =>
    have hs2 : isSchemaMsg m = false := by simpa using hs
    rw [attemptBatch_errField_succ h hs2]
    refine ⟨Nat.lt_of_succ_lt ih.1, fun hc => ?_, fun hc n h1 h2 => ?_⟩
    · obtain ⟨pre, hpre⟩ := ih.2.1 hc
      exact ⟨Event.insert b :: Event.sleep (bf ^ (att + 1)) :: pre, by simp [hpre]⟩
    · rcases eq_or_lt_of_le h1 with heq | hlt
      · rw [← heq, h]
        exact hs2
      · exact ih.2.2 hc n hlt h2
  | case5 rem att c m h hs =>
    rw [attemptBatch_exc_schema h hs]
    exact ⟨Nat.lt_succ_self c, fun _ => ⟨[], rfl⟩, fun hc => by simp at hc⟩
  | case6 att c m h hs =>
    have hs2 : isSchemaMsg m = false := by simpa using hs
    rw [attemptBatch_exc_zero h hs2]
    refine ⟨Nat.lt_succ_self c, fun hc => by simp at hc, fun _ n h1 h2 => ?_⟩
    have h2a : n < c + 1 := h2
    have hn : n = c := by omega
    rw [hn, h]
    exact hs2
  | case7 att c m h hs r ih =>
    have hs2 : isSchemaMsg m = false := by simpa using hs
    rw [attemptBatch_exc_succ h hs2]
    refine ⟨Nat.lt_of_succ_lt ih.1, fun hc => ?_, fun hc n h1 h2 => ?_⟩
    · obtain ⟨pre, hpre⟩ := ih.2.1 hc
      exact ⟨Event.insert b :: Event.sleep (bf ^ (att + 1)) :: pre, by simp [hpre]⟩
    · rcases eq_or_lt_of_le h1 with heq | hlt
      · rw [← heq, h]
        exact hs2
      · exact ih.2.2 hc n hlt h2

/-! ## Substring lemmas for the schema classifier -/

theorem startsWithChars_iff (n : List Char) :
    ∀ h : List Char, startsWithChars n h = true ↔ ∃ r, h = n ++ r := by
  induction n with
  | nil =>
    intro h
    simp [startsWithChars]
  | cons a as ih =>
    intro h
    cases h with
    | nil =>
      simp [startsWithChars]
    | cons b bs =>
      simp only [startsWithChars, Bool.and_eq_true, beq_iff_eq]
      rw [ih bs]
      constructor
      · rintro ⟨rfl, r, rfl⟩
        exact ⟨r, rfl⟩
      · rintro ⟨r, hr⟩
        rw [List.cons_append] at hr
        injection hr with hb hbs
        exact ⟨hb.symm, r, hbs⟩

theorem hasSubChars_iff (n : List Char) :
    ∀ h : List Char, hasSubChars n h = true ↔ ∃ l r, h = l ++ n ++ r := by
  intro h
  induction h with
  | nil =>
    rw [hasSubChars, startsWithChars_iff]
    constructor
    · rintro ⟨r, hr⟩
      exact ⟨[], r, by simpa using hr⟩
    · rintro ⟨l, r, hr⟩
      have h0 : l = [] ∧ n = [] ∧ r = [] := by simpa using hr.symm
      exact ⟨[], by simp [h0.2.1]⟩
  | cons c cs ih =>
    rw [hasSubChars, Bool.or_eq_true]
    constructor
    · rintro (hs | hrec)
      · obtain ⟨r, hr⟩ := (startsWithChars_iff n (c :: cs)).mp hs
        exact ⟨[], r, by simpa using hr⟩
      · obtain ⟨l, r, hr⟩ := ih.mp hrec
        exact ⟨c :: l, r, by simp [hr]⟩
    · rintro ⟨l, r, hr⟩
      cases l with
      | nil =>
        exact Or.inl ((startsWithChars_iff n (c :: cs)).mpr ⟨r, by simpa using hr⟩)
      | cons x xs =>
        simp only [List.cons_append] at hr
        injection hr with hx hxs
        exact Or.inr (ih.mpr ⟨xs, r, hxs⟩)

theorem substrOf_iff (needle hay : String) :
    substrOf needle hay = true ↔ IsSubstrOf needle hay :=
  hasSubChars_iff needle.data hay.data

/-! ## Claim C4 (unconfigured remote store) -/

/-- C4: whenever either credential is missing (or empty), the loader writes
the local fallback copy of the full dataset as its only action, performs no
insert call, and ends in local mode. -/
theorem C4_local_fallback {α : Type} (url key : Option String) (df : List α)
    (B mr : ℕ) (bf : ℚ) (oracle : ℕ → InsertOutcome)
    (h : pyTruthy url = false ∨ pyTruthy key = false) :
    (load_to_supabase url key true df B mr bf oracle).events = [.writeLocal df] ∧
    (load_to_supabase url key true df B mr bf oracle).calls = 0 ∧
    (load_to_supabase url key true df B mr bf oracle).status = .localMode ∧
    ∀ e ∈ (load_to_supabase url key true df B mr bf oracle).events,
      ∀ recs, e ≠ Event.insert recs := by
  have hcl : get_supabase_client url key = false := by
    unfold get_supabase_client
    rcases h with h | h <;> simp [h]
  have hrun : load_to_supabase url key true df B mr bf oracle =
      ⟨[.writeLocal df], 0, .localMode⟩ := by
    simp [load_to_supabase, hcl]
  rw [hrun]
  refine ⟨rfl, rfl, rfl, ?_⟩
  intro e he recs
  simp at he
  rw [he]
  simp

/-- C4, witness: with the URL credential missing the loader writes the
local copy as its only event and makes zero insert calls. -/
theorem C4_witness :
    (load_to_supabase none (some "k") true ([7] : List ℕ) 200 3 2
      (fun _ => .ok)).events = [.writeLocal [7]] ∧
    (load_to_supabase none (some "k") true ([7] : List ℕ) 200 3 2
      (fun _ => .ok)).calls = 0 :=
  ⟨(C4_local_fallback none (some "k") [7] 200 3 2 (fun _ => .ok)
      (Or.inl rfl)).1,
    (C4_local_fallback none (some "k") [7] 200 3 2 (fun _ => .ok)
      (Or.inl rfl)).2.1⟩

/-! ## Claim C1 (schema mismatch aborts to local fallback) -/

theorem processBatches_schema {α : Type} (dfAll : List α) (bf : ℚ) (mr : ℕ)
    (oracle : ℕ → InsertOutcome) :
    ∀ (bs : List (List α)) (c : ℕ),
      (∃ n, c ≤ n ∧ n < (processBatches dfAll bf mr oracle bs c).calls ∧
        isSchemaOutcome (oracle n) = true) →
      (processBatches dfAll bf mr oracle bs c).status = .schemaAbort ∧
      ∃ pre b0, (processBatches dfAll bf mr oracle bs c).events =
        pre ++ [.insert b0, .writeLocal dfAll] := by
  intro bs
  induction bs with
  | nil =>
    intro c hex
    obtain ⟨n, h1, h2, _⟩ := hex
    simp only [processBatches] at h2
    omega
  | cons b bs ih =>
    intro c hex
    obtain ⟨n, h1, h2, hn⟩ := hex
    have spec := attemptBatch_spec b bf oracle mr 0 c
    cases hres : (attemptBatch b bf oracle mr 0 c).2.2 with
    | schemaAbort =>
      obtain ⟨pre, hpre⟩ := spec.2.1 hres
      have hstep : processBatches dfAll bf mr oracle (b :: bs) c =
          ⟨(attemptBatch b bf oracle mr 0 c).1 ++ [.writeLocal dfAll],
            (attemptBatch b bf oracle mr 0 c).2.1, .schemaAbort⟩ := by
        simp only [processBatches, hres]
      rw [hstep]
      refine ⟨rfl, pre, b, ?_⟩
      rw [hpre, List.append_assoc]
      rfl
    | succeeded =>
      have hstep : processBatches dfAll bf mr oracle (b :: bs) c =
          ⟨(attemptBatch b bf oracle mr 0 c).1 ++
              (processBatches dfAll bf mr oracle bs
                (attemptBatch b bf oracle mr 0 c).2.1).events,
            (processBatches dfAll bf mr oracle bs
              (attemptBatch b bf oracle mr 0 c).2.1).calls,
            (processBatches dfAll bf mr oracle bs
              (attemptBatch b bf oracle mr 0 c).2.1).status⟩ := by
        simp only [processBatches, hres]
      rw [hstep] at h2 ⊢
      have hge : (attemptBatch b bf oracle mr 0 c).2.1 ≤ n := by
        by_contra hlt
        have := spec.2.2 (by rw [hres]; intro hcon; cases hcon) n h1 (by omega)
        rw [this] at hn
        cases hn
      obtain ⟨hst, pre, b0, hev⟩ :=
        ih ((attemptBatch b bf oracle mr 0 c).2.1) ⟨n, hge, h2, hn⟩
      refine ⟨hst, (attemptBatch b bf oracle mr 0 c).1 ++ pre, b0, ?_⟩
      rw [hev, List.append_assoc]
    | exhausted =>
      have hstep : processBatches dfAll bf mr oracle (b :: bs) c =
          ⟨(attemptBatch b bf oracle mr 0 c).1 ++
              (processBatches dfAll bf mr oracle bs
                (attemptBatch b bf oracle mr 0 c).2.1).events,
            (processBatches dfAll bf mr oracle bs
              (attemptBatch b bf oracle mr 0 c).2.1).calls,
            (processBatches dfAll bf mr oracle bs
              (attemptBatch b bf oracle mr 0 c).2.1).status⟩ := by
        simp only [processBatches, hres]
      rw [hstep] at h2 ⊢
      have hge : (attemptBatch b bf oracle mr 0 c).2.1 ≤ n := by
        by_contra hlt
        have := spec.2.2 (by rw [hres]; intro hcon; cases hcon) n h1 (by omega)
        rw [this] at hn
        cases hn
      obtain ⟨hst, pre, b0, hev⟩ :=
        ih ((attemptBatch b bf oracle mr 0 c).2.1) ⟨n, hge, h2, hn⟩
      refine ⟨hst, (attemptBatch b bf oracle mr 0 c).1 ++ pre, b0, ?_⟩
      rw [hev, List.append_assoc]

/-- C1: on a configured run, if any insert call fails with a
schema-mismatch outcome (an error field or a raised exception whose message
matches the schema signature), the run ends in the schema-abort state and
its event trace ends with the failing insert immediately followed by a
local-fallback write of the ENTIRE dataframe - no further insert is
attempted and the function returns (in the model every run returns a
`LoadRun`; the Python function catches every exception). -/
theorem C1_schema_abort {α : Type} (url key : Option String) (df : List α)
    (B mr : ℕ) (bf : ℚ) (oracle : ℕ → InsertOutcome)
    (hc : get_supabase_client url key = true)
    (hschema : ∃ n, n < (load_to_supabase url key true df B mr bf oracle).calls ∧
      isSchemaOutcome (oracle n) = true) :
    (load_to_supabase url key true df B mr bf oracle).status = .schemaAbort ∧
    ∃ pre b0, (load_to_supabase url key true df B mr bf oracle).events =
      pre ++ [.insert b0, .writeLocal df] := by
  have hload : load_to_supabase url key true df B mr bf oracle =
      processBatches df bf mr oracle (chunks B df) 0 := by
    simp [load_to_supabase, hc]
  rw [hload] at hschema ⊢
  obtain ⟨n, h2, hn⟩ := hschema
  exact processBatches_schema df bf mr oracle (chunks B df) 0 ⟨n, Nat.zero_le n, h2, hn⟩

unseal chunks in
/-- C1, witness: five one-row batches, the third insert raises a
schema-mismatch exception; the run aborts with status `schemaAbort`. -/
theorem C1_witness :
    (load_to_supabase (some "u") (some "k") true ([1, 2, 3, 4, 5] : List ℕ) 1 3 2
      (fun n => if n == 2 then .errField "PGRST204: Could not find column" else .ok)).status =
      .schemaAbort :=
  (C1_schema_abort (some "u") (some "k") [1, 2, 3, 4, 5] 1 3 2
    (fun n => if n == 2 then .errField "PGRST204: Could not find column" else .ok)
    (by decide) ⟨2, by decide, by decide⟩).1

/-! ## Claim C8 (transient errors: retry with backoff, then skip batch) -/

theorem attemptBatch_all_transient {α : Type} (b : List α) (bf : ℚ)
    (oracle : ℕ → InsertOutcome) :
    ∀ (rem att c : ℕ), (∀ j, j ≤ rem → isTransientFail (oracle (c + j)) = true) →
      attemptBatch b bf oracle rem att c =
        (retryTrace b bf att rem, c + rem + 1, .exhausted) := by
  intro rem
  induction rem with
  | zero =>
    intro att c h
    have h0 := h 0 (Nat.le_refl 0)
    rw [Nat.add_zero] at h0
    cases hora : oracle c with
    | ok =>
      rw [hora] at h0
      simp [isTransientFail] at h0
    | errField m =>
      rw [hora] at h0
      have hs : isSchemaMsg m = false := by simpa [isTransientFail] using h0
      rw [attemptBatch_errField_zero hora hs]
      rfl
    | exc m =>
      rw [hora] at h0
      have hs : isSchemaMsg m = false := by simpa [isTransientFail] using h0
      rw [attemptBatch_exc_zero hora hs]
      rfl
  | succ r ih =>
    intro att c h
    have h0 := h 0 (Nat.zero_le _)
    rw [Nat.add_zero] at h0
    have hrec := ih (att + 1) (c + 1) (fun j hj => by
      have hx := h (j + 1) (Nat.succ_le_succ hj)
      rwa [show c + (j + 1) = c + 1 + j by omega] at hx)
    cases hora : oracle c with
    | ok =>
      rw [hora] at h0
      simp [isTransientFail] at h0
    | errField m =>
      rw [hora] at h0
      have hs : isSchemaMsg m = false := by simpa [isTransientFail] using h0
      rw [attemptBatch_errField_succ hora hs, hrec, retryTrace]
      refine congrArg₂ Prod.mk rfl (congrArg₂ Prod.mk (by omega) rfl)
    | exc m =>
      rw [hora] at h0
      have hs : isSchemaMsg m = false := by simpa [isTransientFail] using h0
      rw [attemptBatch_exc_succ hora hs, hrec, retryTrace]
      refine congrArg₂ Prod.mk rfl (congrArg₂ Prod.mk (by omega) rfl)

/-- C8: for a batch whose insert calls all fail transiently (messages not
matching the schema signature), the loader re-inserts the SAME batch after
sleeping `backoff_factor ^ attempt` seconds before retry number `attempt`
(`attempt = 1 .. max_retries`, as spelled out by `retryTrace`), gives up
after `max_retries` retries (`max_retries + 1` insert calls), and then
continues with the remaining batches exactly as if it had started there -
only the exhausted batch is skipped, the run is not aborted. -/
theorem C8_transient_retry {α : Type} (dfAll b : List α) (bs : List (List α))
    (bf : ℚ) (mr : ℕ) (oracle : ℕ → InsertOutcome) (c : ℕ)
    (h : ∀ j, j ≤ mr → isTransientFail (oracle (c + j)) = true) :
    processBatches dfAll bf mr oracle (b :: bs) c =
      ⟨retryTrace b bf 0 mr ++
          (processBatches dfAll bf mr oracle bs (c + mr + 1)).events,
        (processBatches dfAll bf mr oracle bs (c + mr + 1)).calls,
        (processBatches dfAll bf mr oracle bs (c + mr + 1)).status⟩ := by
  have ha := attemptBatch_all_transient b bf oracle mr 0 c h
  simp only [processBatches, ha]

/-- C8, witness: with `max_retries = 1` and a persistently timing-out
remote, the first batch is inserted, retried once after sleeping
`backoff_factor ^ 1 = 2`, then skipped; the second batch succeeds and the
run completes. -/
theorem C8_witness :
    processBatches ([1, 2] : List ℕ) 2 1
      (fun n => if n ≤ 1 then .exc "connection timeout" else .ok) [[1], [2]] 0 =
      ⟨[.insert [1], .sleep 2, .insert [1], .insert [2]], 3, .completed⟩ := by
  have h := C8_transient_retry ([1, 2] : List ℕ) [1] [[2]] 2 1
    (fun n => if n ≤ 1 then .exc "connection timeout" else .ok) 0
    (by
      intro j hj
      rcases Nat.le_one_iff_eq_zero_or_eq_one.mp hj with rfl | rfl <;> decide)
  rw [h]
  decide

/-! ## Claim C10 (substring-based schema classification) -/

/-- C10: an insert failure is classified as a schema mismatch exactly when
its message contains one of the case-sensitive substrings "Could not find",
"PGRST", "column"; consequently a transient-looking exception whose message
merely contains "column" aborts the whole remote run after its first
insert, writing the local fallback instead of retrying. -/
theorem C10_substring_classifier (msg : String) :
    (isSchemaMsg msg = true ↔
      (IsSubstrOf "Could not find" msg ∨ IsSubstrOf "PGRST" msg ∨
        IsSubstrOf "column" msg)) ∧
    (∀ {α : Type} (df : List α) (url key : Option String) (B mr : ℕ) (bf : ℚ)
        (oracle : ℕ → InsertOutcome),
      get_supabase_client url key = true → 1 ≤ B → df ≠ [] →
      oracle 0 = .exc msg → IsSubstrOf "column" msg →
      load_to_supabase url key true df B mr bf oracle =
        ⟨[.insert (df.take B), .writeLocal df], 1, .schemaAbort⟩) := by
  have hiff : isSchemaMsg msg = true ↔
      (IsSubstrOf "Could not find" msg ∨ IsSubstrOf "PGRST" msg ∨
        IsSubstrOf "column" msg) := by
    unfold isSchemaMsg
    simp only [Bool.or_eq_true]
    rw [substrOf_iff, substrOf_iff, substrOf_iff, or_assoc]
  refine ⟨hiff, ?_⟩
  intro α df url key B mr bf oracle hc hB hd hor hsub
  have hs : isSchemaMsg msg = true := hiff.mpr (Or.inr (Or.inr hsub))
  obtain ⟨a, l, rfl⟩ : ∃ a l, df = a :: l := by
    cases df with
    | nil => exact absurd rfl hd
    | cons a l => exact ⟨a, l, rfl⟩
  obtain ⟨k, rfl⟩ : ∃ k, B = k + 1 := ⟨B - 1, by omega⟩
  have hchunks : chunks (k + 1) (a :: l) =
      (a :: l.take k) :: chunks (k + 1) (l.drop k) := by
    rw [chunks]
    simp
  have hbatch : attemptBatch (a :: l.take k) bf oracle mr 0 0 =
      ([.insert (a :: l.take k)], 1, .schemaAbort) :=
    attemptBatch_exc_schema hor hs
  have hload : load_to_supabase url key true (a :: l) (k + 1) mr bf oracle =
      processBatches (a :: l) bf mr oracle (chunks (k + 1) (a :: l)) 0 := by
    simp [load_to_supabase, hc]
  rw [hload, hchunks]
  simp only [processBatches, hbatch, List.take_succ_cons]
  rfl

/-- C10, witness: a timeout-style exception whose message contains the word
"column" aborts the remote run at the first batch and writes the local
fallback. -/
theorem C10_witness :
    load_to_supabase (some "u") (some "k") true ([1, 2, 3] : List ℕ) 2 3 2
      (fun _ => .exc "timeout waiting for column store") =
      ⟨[.insert [1, 2], .writeLocal [1, 2, 3]], 1, .schemaAbort⟩ :=
  (C10_substring_classifier "timeout waiting for column store").2
    [1, 2, 3] (some "u") (some "k") 2 3 2
    (fun _ => .exc "timeout waiting for column store")
    rfl (by omega) (by simp) rfl
    ((substrOf_iff "column" "timeout waiting for column store").mp (by decide))

end ETL
